import Mathlib

/-!
# Verification of the LX_IMG_Confusion pixel-permutation engine

Shallow embedding of the repository's two source files (`script.js` and the
extended variant): the generalized Hilbert ("gilbert") space-filling curve
generator, the curve-offset pixel permutation used by `encrypt`/`decrypt` /
`applyGilbertConfusion`, and the block-smooth transform
(`applyBlockConfusion` / `processBlockSmooth`).

JavaScript integer arithmetic is modelled over `ℤ` (all numbers involved are
exact integers well below 2^53, so double-precision arithmetic on them is
exact): `Math.floor(v / 2)` on an integer is `Int.fdiv v 2`, `Math.sign` is
`Int.sign`, `Math.abs` of an integer is `Int.natAbs`.  The JS recursion in
`generate2d` pushes onto a shared `coordinates` array; the embedding returns
the list of pushed cells.  Recursion is fueled: `none` means the fuel bound
was hit (the source has no fuel; sufficiency of fuel `w + h` is proved below).
-/

/-- A grid cell `[x, y]` as pushed by `generate2d`. -/
abbrev Cell := ℤ × ℤ

/-- Embedding of `generate2d(x, y, ax, ay, bx, by, coordinates)`
(src/script.js lines 19–76; byte-identical copy in the second source file). -/
def generate2d : ℕ → ℤ → ℤ → ℤ → ℤ → ℤ → ℤ → Option (List Cell)
  | 0, _, _, _, _, _, _ => none
  | fuel + 1, x, y, ax, ay, bx, by_ =>
    let w : ℕ := (ax + ay).natAbs
    let h : ℕ := (bx + by_).natAbs
    let dax := ax.sign
    let day := ay.sign
    let dbx := bx.sign
    let dby := by_.sign
    if h = 1 then
      -- trivial row fill
      some ((List.range w).map fun i => (x + i * dax, y + i * day))
    else if w = 1 then
      -- trivial column fill
      some ((List.range h).map fun i => (x + i * dbx, y + i * dby))
    else
      let ax2 := ax.fdiv 2
      let ay2 := ay.fdiv 2
      let bx2 := bx.fdiv 2
      let by2 := by_.fdiv 2
      let w2 : ℕ := (ax2 + ay2).natAbs
      let h2 : ℕ := (bx2 + by2).natAbs
      if 2 * w > 3 * h then
        -- prefer even steps
        let ax2 := if w2 % 2 = 1 ∧ w > 2 then ax2 + dax else ax2
        let ay2 := if w2 % 2 = 1 ∧ w > 2 then ay2 + day else ay2
        -- long case: split in two parts only
        do
          let l1 ← generate2d fuel x y ax2 ay2 bx by_
          let l2 ← generate2d fuel (x + ax2) (y + ay2) (ax - ax2) (ay - ay2) bx by_
          some (l1 ++ l2)
      else
        -- prefer even steps
        let bx2 := if h2 % 2 = 1 ∧ h > 2 then bx2 + dbx else bx2
        let by2 := if h2 % 2 = 1 ∧ h > 2 then by2 + dby else by2
        -- standard case: one step up, one long horizontal, one step down
        do
          let l1 ← generate2d fuel x y bx2 by2 ax2 ay2
          let l2 ← generate2d fuel (x + bx2) (y + by2) ax ay (bx - bx2) (by_ - by2)
          let l3 ← generate2d fuel (x + (ax - dax) + (bx2 - dbx))
              (y + (ay - day) + (by2 - dby)) (-bx2) (-by2) (-(ax - ax2)) (-(ay - ay2))
          some (l1 ++ l2 ++ l3)

/-- Embedding of `gilbert2d(width, height)` (src/script.js lines 2–17). -/
def gilbert2d (fuel : ℕ) (width height : ℤ) : Option (List Cell) :=
  if width ≥ height then
    generate2d fuel 0 0 width 0 0 height
  else
    generate2d fuel 0 0 0 height width 0

/-- The canonical fuel used in the theorems below: `w + h` bounds the recursion
depth (proved in `generate2d_total`). -/
def gilbertFuel (width height : ℤ) : ℕ := (width + height).toNat

/-- `gilbert2d` with the canonical sufficient fuel. -/
def gilbert2dRun (width height : ℤ) : Option (List Cell) :=
  gilbert2d (gilbertFuel width height) width height

/-- Manhattan adjacency of two cells: they differ by exactly one unit step in
exactly one axis (the spec's 4-connected locality invariant). -/
def manhattanAdj (p q : Cell) : Prop :=
  (p.1 - q.1).natAbs + (p.2 - q.2).natAbs = 1

instance (p q : Cell) : Decidable (manhattanAdj p q) :=
  inferInstanceAs (Decidable ((p.1 - q.1).natAbs + (p.2 - q.2).natAbs = 1))

/-- King-move (8-connected) adjacency: the two cells are distinct and differ by
at most one unit in each axis. -/
def kingAdj (p q : Cell) : Prop :=
  max (p.1 - q.1).natAbs (p.2 - q.2).natAbs = 1

instance (p q : Cell) : Decidable (kingAdj p q) :=
  inferInstanceAs (Decidable (max (p.1 - q.1).natAbs (p.2 - q.2).natAbs = 1))

/-- The argument tuples `(x, y, ax, ay, bx, by)` of the recursive calls that
`generate2d` performs from the given arguments (source lines 60–61 for the
long case and 71–74 for the standard case); `[]` in the two base cases.  Used
to reason about the recursion's measure. -/
def generate2dCalls (x y ax ay bx by_ : ℤ) : List (ℤ × ℤ × ℤ × ℤ × ℤ × ℤ) :=
  let w : ℕ := (ax + ay).natAbs
  let h : ℕ := (bx + by_).natAbs
  let dax := ax.sign
  let day := ay.sign
  let dbx := bx.sign
  let dby := by_.sign
  if h = 1 then []
  else if w = 1 then []
  else
    let ax2 := ax.fdiv 2
    let ay2 := ay.fdiv 2
    let bx2 := bx.fdiv 2
    let by2 := by_.fdiv 2
    let w2 : ℕ := (ax2 + ay2).natAbs
    let h2 : ℕ := (bx2 + by2).natAbs
    if 2 * w > 3 * h then
      let ax2 := if w2 % 2 = 1 ∧ w > 2 then ax2 + dax else ax2
      let ay2 := if w2 % 2 = 1 ∧ w > 2 then ay2 + day else ay2
      [(x, y, ax2, ay2, bx, by_),
       (x + ax2, y + ay2, ax - ax2, ay - ay2, bx, by_)]
    else
      let bx2 := if h2 % 2 = 1 ∧ h > 2 then bx2 + dbx else bx2
      let by2 := if h2 % 2 = 1 ∧ h > 2 then by2 + dby else by2
      [(x, y, bx2, by2, ax2, ay2),
       (x + bx2, y + by2, ax, ay, bx - bx2, by_ - by2),
       (x + (ax - dax) + (bx2 - dbx), y + (ay - day) + (by2 - dby),
        -bx2, -by2, -(ax - ax2), -(ay - ay2))]

/-- The larger of the two grid-aligned side lengths of a `generate2d` call. -/
def maxDim (ax ay bx by_ : ℤ) : ℕ := max (ax + ay).natAbs (bx + by_).natAbs

/-- `generate2d(0,0,0,0,0,0)` recurses forever: the standard case reproduces
exactly the same argument tuple, so no fuel suffices. -/
theorem generate2d_allZero_none : ∀ fuel, generate2d fuel 0 0 0 0 0 0 = none := by
  intro fuel
  induction fuel with
  | zero => rfl
  | succ n ih => simp [generate2d, ih]

/-- `gilbert2d(0, 0)` diverges (infinite recursion in the source). -/
theorem gilbert2d_zero_zero_none : ∀ fuel, gilbert2d fuel 0 0 = none := by
  intro fuel
  simpa [gilbert2d] using generate2d_allZero_none fuel

/-- C9: the three concrete curve vectors stated by the spec. -/
theorem gilbert2d_concrete_vectors :
    gilbert2dRun 4 1 = some [(0, 0), (1, 0), (2, 0), (3, 0)] ∧
    gilbert2dRun 1 4 = some [(0, 0), (0, 1), (0, 2), (0, 3)] ∧
    gilbert2dRun 2 2 = some [(0, 0), (0, 1), (1, 1), (1, 0)] := by
  decide

/-- Counterexample to C3: on the 4×5 grid the curve contains two consecutive
cells, `curve[13] = (2,3)` and `curve[14] = (1,4)`, at Manhattan distance 2
(a diagonal step), so consecutive curve cells are not always 4-connected. -/
theorem gilbert2d_locality_cex :
    gilbert2dRun 4 5 =
      some [(0, 0), (0, 1), (1, 1), (1, 0), (2, 0), (3, 0), (3, 1), (2, 1),
            (2, 2), (3, 2), (3, 3), (3, 4), (2, 4), (2, 3), (1, 4), (1, 3),
            (1, 2), (0, 2), (0, 3), (0, 4)] ∧
    ((gilbert2dRun 4 5).getD []).getD 13 (0, 0) = (2, 3) ∧
    ((gilbert2dRun 4 5).getD []).getD 14 (0, 0) = (1, 4) ∧
    ¬ manhattanAdj (2, 3) (1, 4) := by
  decide

/-- Counterexample to C4's stated measure: the standard-case middle recursive
call of `generate2d(0,0,3,0,0,2)` (a 3×2 region, `max(w,h) = 3`) is
`generate2d(0,1,3,0,0,1)` (a 3×1 region, again `max(w,h) = 3`), so recursive
calls do not strictly reduce `max(w, h)`. -/
theorem generate2d_maxdim_cex :
    (0, 1, 3, 0, 0, 1) ∈ generate2dCalls 0 0 3 0 0 2 ∧
    maxDim 3 0 0 1 = maxDim 3 0 0 2 := by
  decide

/-- Counterexample to C7: for the degenerate dimensions width = −1, height = 5
the source does not return the empty sequence; it row-fills `|−1| = 1`-high
strip of length 5. -/
theorem gilbert2d_degenerate_cex :
    gilbert2dRun (-1) 5 = some [(0, 0), (0, 1), (0, 2), (0, 3), (0, 4)] ∧
    gilbert2dRun (-1) 5 ≠ some [] := by
  decide

/-! ## The curve-offset pixel permutation (`applyGilbertConfusion`, `decrypt`) -/

/-- Row-major byte offset of the 4-sample pixel at cell `p`: the source
expression `4 * (pos[0] + pos[1] * width)`. -/
def pixOffset (width : ℤ) (p : Cell) : ℕ := (4 * (p.1 + p.2 * width)).toNat

/-- `imgdata.data.slice(p, p + 4)` on a buffer modelled as `List ℕ`
(out-of-range reads default to 0; the source never reads out of range). -/
def slice4 (data : List ℕ) (p : ℕ) : List ℕ :=
  [data.getD p 0, data.getD (p + 1) 0, data.getD (p + 2) 0, data.getD (p + 3) 0]

/-- `imgdata2.data.set(src, p)` for a 4-sample slice `src`. -/
def set4 (data : List ℕ) (p : ℕ) (src : List ℕ) : List ℕ :=
  (((data.set p (src.getD 0 0)).set (p + 1) (src.getD 1 0)).set
    (p + 2) (src.getD 2 0)).set (p + 3) (src.getD 3 0)

/-- The double-precision value of the JS expression `(Math.sqrt(5) - 1) / 2`
(`Math.sqrt(5)` rounds √5 to the nearest double; the subtraction and the
halving are then exact), written as its shortest decimal.  Every rounding
performed below lands far from a half-integer, so this rational reproduces
the float computation exactly at the inputs used in the theorems. -/
def phiJS : ℚ := 0.6180339887498949

/-- `Math.round(x)` for the non-negative arguments that occur here. -/
def jsRound (q : ℚ) : ℤ := ⌊q + 1 / 2⌋

/-- `offset = Math.round((Math.sqrt(5) - 1) / 2 * width * height * strength)`
(the `applyGilbertConfusion` offset, line 407 of the extended source).  The
`decrypt` function (line 498) computes its offset *without* the strength
factor, i.e. as `goldenOffset N 1`. -/
def goldenOffset (N : ℕ) (strength : ℚ) : ℕ := (jsRound (phiJS * N * strength)).toNat

/-- The encrypt-direction pixel permutation (`applyGilbertConfusion` loop,
lines 409–415; identically the `encrypt` loop of `script.js` lines 280–286):
for each curve index `i` the pixel at `curve[i]` is copied to
`curve[(i + offset) % (width*height)]` in a fresh zero-initialised buffer
(`new ImageData`).  Parameterised over the already-computed `offset`. -/
def permuteEncrypt (width height : ℤ) (curve : List Cell) (offset : ℕ)
    (data : List ℕ) : List ℕ :=
  let N := (width * height).toNat
  (List.range N).foldl
    (fun acc i =>
      let oldPos := curve.getD i (0, 0)
      let newPos := curve.getD ((i + offset) % N) (0, 0)
      set4 acc (pixOffset width newPos) (slice4 data (pixOffset width oldPos)))
    (List.replicate (4 * N) 0)

/-- The decrypt-direction pixel permutation (`decrypt` loop, lines 500–506):
for each curve index `i` the pixel at `curve[(i + offset) % N]` is copied
back to `curve[i]`. -/
def permuteDecrypt (width height : ℤ) (curve : List Cell) (offset : ℕ)
    (data : List ℕ) : List ℕ :=
  let N := (width * height).toNat
  (List.range N).foldl
    (fun acc i =>
      let oldPos := curve.getD i (0, 0)
      let newPos := curve.getD ((i + offset) % N) (0, 0)
      set4 acc (pixOffset width oldPos) (slice4 data (pixOffset width newPos)))
    (List.replicate (4 * N) 0)

/-- The curve the confusion functions compute internally:
`gilbert2d(width, height)` with the canonical fuel. -/
def curveOf (width height : ℤ) : List Cell := (gilbert2dRun width height).getD []

/-- C1 (code bug): on a 2×2 image with strength 0.5, encrypt shifts curve
indices by `round(φ·4·0.5) = 1` while decrypt shifts back by `round(φ·4) = 2`
(it ignores the strength), so decrypt ∘ encrypt is a net cyclic shift, not the
identity: the all-distinct 16-sample buffer comes back permuted. -/
theorem roundTrip_fails_with_strength :
    goldenOffset 4 (1 / 2) = 1 ∧ goldenOffset 4 1 = 2 ∧
    permuteDecrypt 2 2 (curveOf 2 2) (goldenOffset 4 1)
        (permuteEncrypt 2 2 (curveOf 2 2) (goldenOffset 4 (1 / 2))
          [0, 1, 2, 3, 4, 5, 6, 7, 8, 9, 10, 11, 12, 13, 14, 15]) =
      [8, 9, 10, 11, 0, 1, 2, 3, 12, 13, 14, 15, 4, 5, 6, 7] ∧
    permuteDecrypt 2 2 (curveOf 2 2) (goldenOffset 4 1)
        (permuteEncrypt 2 2 (curveOf 2 2) (goldenOffset 4 (1 / 2))
          [0, 1, 2, 3, 4, 5, 6, 7, 8, 9, 10, 11, 12, 13, 14, 15]) ≠
      [0, 1, 2, 3, 4, 5, 6, 7, 8, 9, 10, 11, 12, 13, 14, 15] := by
  have h1 : goldenOffset 4 (1 / 2) = 1 := by norm_num [goldenOffset, jsRound, phiJS]
  have h2 : goldenOffset 4 1 = 2 := by
    norm_num [goldenOffset, jsRound, phiJS]
    decide
  refine ⟨h1, h2, ?_, ?_⟩ <;> rw [h1, h2] <;> decide

/-! ## The block-smooth transform (`applyBlockConfusion`, `processBlockSmooth`) -/

/-- The per-pixel blend factor `smoothFactor` of `processBlockSmooth`
(line 465), as an abstract rational parameter: the source computes
`1 - (distance / maxDistance) * strength` through floating-point square
roots.  Every theorem below holds for *every* rational value of the factor,
hence in particular for the values the float code produces (every double is
rational).  `f dx dy bw bh` is the factor for the pixel at offset `(dx, dy)`
of a `bw × bh` tile. -/
abbrev SmoothFactor := ℕ → ℕ → ℕ → ℕ → ℚ

/-- One blended channel (lines 468–470):
`Math.floor(cur * smoothFactor + orig * (1 - smoothFactor))`. -/
def blendSample (cur orig : ℕ) (f : ℚ) : ℕ :=
  (⌊(cur : ℚ) * f + (orig : ℚ) * (1 - f)⌋).toNat

/-- The snapshot `originalData` (lines 442–454): a `bw·bh·4`-entry array with
`originalData[(dy*bw + dx)*4 + c] = data[((startY+dy)*width + (startX+dx))*4 + c]`
for `dy < bh`, `dx < bw`, `c < 4`, captured before any write.  The source
fills it with a double loop over `(dy, dx)`; the comprehension below produces
entry `t` of exactly that array. -/
def tileSnapshot (data : List ℕ) (startX startY bw bh width : ℕ) : List ℕ :=
  (List.range (bw * bh * 4)).map fun t =>
    let pix := t / 4
    let c := t % 4
    let dy := pix / bw
    let dx := pix % bw
    data.getD (((startY + dy) * width + (startX + dx)) * 4 + c) 0

/-- The `(dy, dx)` iteration order of the tile loops (outer `dy`, inner `dx`). -/
def tilePixels (bw bh : ℕ) : List (ℕ × ℕ) :=
  (List.range bh).flatMap fun dy => (List.range bw).map fun dx => (dy, dx)

/-- Embedding of `processBlockSmooth(data, startX, startY, blockWidth,
blockHeight, width, strength)` (lines 436–473): capture the snapshot, then
for each pixel rewrite channels 0, 1, 2 in place, each as a blend of the
*current* buffer value with the snapshot value. -/
def processBlockSmooth (f : SmoothFactor) (data : List ℕ)
    (startX startY bw bh width : ℕ) : List ℕ :=
  let orig := tileSnapshot data startX startY bw bh width
  (tilePixels bw bh).foldl
    (fun acc p =>
      let index := ((startY + p.1) * width + (startX + p.2)) * 4
      let tempIndex := (p.1 * bw + p.2) * 4
      let fac := f p.2 p.1 bw bh
      let acc0 := acc.set index (blendSample (acc.getD index 0) (orig.getD tempIndex 0) fac)
      let acc1 := acc0.set (index + 1)
        (blendSample (acc0.getD (index + 1) 0) (orig.getD (tempIndex + 1) 0) fac)
      acc1.set (index + 2)
        (blendSample (acc1.getD (index + 2) 0) (orig.getD (tempIndex + 2) 0) fac))
    data

/-- The independent per-sample map that C6 claims the transform is equivalent
to: each RGB sample `v` of the tile is replaced by `⌊v·f + v·(1 − f)⌋` — a
blend of the sample *with itself*, read directly from the input buffer,
never mixing two distinct samples; the alpha channel is untouched. -/
def processBlockPointwise (f : SmoothFactor) (data : List ℕ)
    (startX startY bw bh width : ℕ) : List ℕ :=
  (tilePixels bw bh).foldl
    (fun acc p =>
      let index := ((startY + p.1) * width + (startX + p.2)) * 4
      let fac := f p.2 p.1 bw bh
      let v0 := data.getD index 0
      let v1 := data.getD (index + 1) 0
      let v2 := data.getD (index + 2) 0
      ((acc.set index (blendSample v0 v0 fac)).set (index + 1)
        (blendSample v1 v1 fac)).set (index + 2) (blendSample v2 v2 fac))
    data

/-- Embedding of `applyBlockConfusion(ctx, width, height, blockSize, strength)`
(lines 421–433): `processBlockSmooth` over the `blockSize`-strided tile grid,
edge tiles clipped by `Math.min`.  The strided `for` loops run
`⌈height/blockSize⌉` × `⌈width/blockSize⌉` iterations (`blockSize > 0`;
`blockSize = 0` would loop forever in the source). -/
def applyBlockConfusion (f : SmoothFactor) (data : List ℕ)
    (width height blockSize : ℕ) : List ℕ :=
  let tiles := (List.range ((height + blockSize - 1) / blockSize)).flatMap fun ty =>
    (List.range ((width + blockSize - 1) / blockSize)).map fun tx =>
      (tx * blockSize, ty * blockSize)
  tiles.foldl
    (fun acc t =>
      processBlockSmooth f acc t.1 t.2
        (min blockSize (width - t.1)) (min blockSize (height - t.2)) width)
    data

/-- Blending a sample with itself returns the sample unchanged. -/
theorem blendSample_self (v : ℕ) (f : ℚ) : blendSample v v f = v := by
  have h : (v : ℚ) * f + (v : ℚ) * (1 - f) = (v : ℚ) := by ring
  rw [blendSample, h, Int.floor_natCast, Int.toNat_natCast]

/-- Setting an entry of a list to its current value is a no-op. -/
theorem List.set_getD_self (l : List ℕ) (i : ℕ) : l.set i (l.getD i 0) = l := by
  induction l generalizing i with
  | nil => rfl
  | cons a l ih =>
    cases i with
    | zero => rfl
    | succ n => simpa [List.set, List.getD] using ih n

/-- The snapshot really holds the pre-write values: entry `(dy·bw + dx)·4 + c`
of `originalData` equals buffer entry `((startY+dy)·width + (startX+dx))·4 + c`. -/
theorem tileSnapshot_getD (data : List ℕ) (startX startY bw bh width : ℕ)
    {dy dx c : ℕ} (hdy : dy < bh) (hdx : dx < bw) (hc : c < 4) :
    (tileSnapshot data startX startY bw bh width).getD ((dy * bw + dx) * 4 + c) 0 =
      data.getD (((startY + dy) * width + (startX + dx)) * 4 + c) 0 := by
  have hbw : 0 < bw := by omega
  have hlt : (dy * bw + dx) * 4 + c < bw * bh * 4 := by nlinarith
  rw [tileSnapshot, List.getD_eq_getElem?_getD, List.getElem?_map,
    List.getElem?_range hlt]
  have h4 : ((dy * bw + dx) * 4 + c) / 4 = dy * bw + dx := by omega
  have hcc : ((dy * bw + dx) * 4 + c) % 4 = c := by omega
  have hdiv : (dy * bw + dx) / bw = dy := by
    rw [mul_comm, Nat.mul_add_div hbw, Nat.div_eq_of_lt hdx, Nat.add_zero]
  have hmod : (dy * bw + dx) % bw = dx := by
    rw [mul_comm, Nat.mul_add_mod, Nat.mod_eq_of_lt hdx]
  simp [h4, hcc, hdiv, hmod]

/-- Membership in the tile iteration: exactly the offsets inside the tile. -/
theorem tilePixels_mem {bw bh : ℕ} {p : ℕ × ℕ} (hp : p ∈ tilePixels bw bh) :
    p.1 < bh ∧ p.2 < bw := by
  simp only [tilePixels, List.mem_flatMap, List.mem_map, List.mem_range] at hp
  obtain ⟨dy, hdy, dx, hdx, rfl⟩ := hp
  exact ⟨hdy, hdx⟩

/-- The write loop of `processBlockSmooth` leaves the buffer unchanged: at the
moment each channel is rewritten, the current value and the snapshot value
coincide, so every write stores the value already present. -/
theorem tileFold_id (orig data : List ℕ) (sx sy bw bh width : ℕ) (f : SmoothFactor)
    (horig : ∀ dy dx c, dy < bh → dx < bw → c < 4 →
      orig.getD ((dy * bw + dx) * 4 + c) 0 =
        data.getD (((sy + dy) * width + (sx + dx)) * 4 + c) 0)
    (l : List (ℕ × ℕ)) (hl : ∀ p ∈ l, p.1 < bh ∧ p.2 < bw) :
    l.foldl
      (fun acc p =>
        let index := ((sy + p.1) * width + (sx + p.2)) * 4
        let tempIndex := (p.1 * bw + p.2) * 4
        let fac := f p.2 p.1 bw bh
        let acc0 := acc.set index
          (blendSample (acc.getD index 0) (orig.getD tempIndex 0) fac)
        let acc1 := acc0.set (index + 1)
          (blendSample (acc0.getD (index + 1) 0) (orig.getD (tempIndex + 1) 0) fac)
        acc1.set (index + 2)
          (blendSample (acc1.getD (index + 2) 0) (orig.getD (tempIndex + 2) 0) fac))
      data = data := by
  induction l with
  | nil => rfl
  | cons p t ih =>
    obtain ⟨dy, dx⟩ := p
    obtain ⟨h1, h2⟩ := hl (dy, dx) (List.mem_cons_self _ _)
    have e0 : orig.getD ((dy * bw + dx) * 4) 0 =
        data.getD (((sy + dy) * width + (sx + dx)) * 4) 0 := by
      simpa using horig dy dx 0 h1 h2 (by norm_num)
    have e1 := horig dy dx 1 h1 h2 (by norm_num)
    have e2 := horig dy dx 2 h1 h2 (by norm_num)
    simp only [List.foldl_cons, e0, e1, e2, blendSample_self, List.set_getD_self]
    exact ih fun q hq => hl q (List.mem_cons_of_mem _ hq)

/-- `processBlockSmooth` is the identity on the buffer: every sample is blended
with itself. -/
theorem processBlockSmooth_eq_self (f : SmoothFactor) (data : List ℕ)
    (sx sy bw bh width : ℕ) :
    processBlockSmooth f data sx sy bw bh width = data := by
  rw [processBlockSmooth]
  exact tileFold_id _ data sx sy bw bh width f
    (fun dy dx c h1 h2 hc => tileSnapshot_getD data sx sy bw bh width h1 h2 hc)
    _ (fun p hp => tilePixels_mem hp)

/-- The independent per-sample map is likewise the identity. -/
theorem processBlockPointwise_eq_self (f : SmoothFactor) (data : List ℕ)
    (sx sy bw bh width : ℕ) :
    processBlockPointwise f data sx sy bw bh width = data := by
  rw [processBlockPointwise]
  have hfun :
      (fun (acc : List ℕ) (p : ℕ × ℕ) =>
        let index := ((sy + p.1) * width + (sx + p.2)) * 4
        let fac := f p.2 p.1 bw bh
        let v0 := data.getD index 0
        let v1 := data.getD (index + 1) 0
        let v2 := data.getD (index + 2) 0
        ((acc.set index (blendSample v0 v0 fac)).set (index + 1)
          (blendSample v1 v1 fac)).set (index + 2) (blendSample v2 v2 fac)) =
      fun (acc : List ℕ) (p : ℕ × ℕ) =>
        let index := ((sy + p.1) * width + (sx + p.2)) * 4
        ((acc.set index (data.getD index 0)).set (index + 1)
          (data.getD (index + 1) 0)).set (index + 2) (data.getD (index + 2) 0) := by
    funext acc p
    simp only [blendSample_self]
  rw [hfun]
  induction tilePixels bw bh with
  | nil => rfl
  | cons p t ih =>
    simp only [List.foldl_cons, List.set_getD_self]
    exact ih

/-- C6: the whole block-smooth tile transform is equivalent to the independent
per-sample map `v ↦ ⌊v·smoothFactor + v·(1 − smoothFactor)⌋` (each sample
blended with itself, never mixing two distinct samples): the snapshot
`originalData` is captured before any write and each sample is written exactly
once, so both operands of every blend are equal.  Holds for every rational
value of the smooth factor, hence for the float values the source computes. -/
theorem processBlockSmooth_pointwise (f : SmoothFactor) (data : List ℕ)
    (startX startY bw bh width : ℕ) :
    processBlockSmooth f data startX startY bw bh width =
      processBlockPointwise f data startX startY bw bh width := by
  rw [processBlockSmooth_eq_self, processBlockPointwise_eq_self]

/-- Folding an action that ignores its accumulator argument's history and
returns it unchanged is the identity. -/
theorem foldl_fixed {α β : Type} (g : α → β → α) (hg : ∀ a b, g a b = a) :
    ∀ (l : List β) (a : α), l.foldl g a = a := by
  intro l
  induction l with
  | nil => intro a; rfl
  | cons b t ih => intro a; rw [List.foldl_cons, hg]; exact ih a

/-- `applyBlockConfusion` is the identity on the buffer, for every tile size
and every factor function. -/
theorem applyBlockConfusion_eq_self (f : SmoothFactor) (data : List ℕ)
    (width height blockSize : ℕ) :
    applyBlockConfusion f data width height blockSize = data := by
  rw [applyBlockConfusion]
  simp only [processBlockSmooth_eq_self]
  exact foldl_fixed (fun (a : List ℕ) (_ : ℕ × ℕ) => a) (fun _ _ => rfl) _ data

/-- C5 counter-evidence (code bug): applying the block transform twice to a
concrete 2×1 buffer with blockSize 8 and a nonzero-strength factor value
(7/10 stands in for `1 − (d/maxD)·strength`) returns the buffer unchanged —
the "lossy radial blend" is in fact the identity, so "twice is not the
identity" fails on every buffer. -/
theorem blockConfusion_twice_id_cex :
    applyBlockConfusion (fun _ _ _ _ => 7 / 10)
        (applyBlockConfusion (fun _ _ _ _ => 7 / 10)
          [10, 20, 30, 255, 40, 50, 60, 255] 2 1 8) 2 1 8 =
      [10, 20, 30, 255, 40, 50, 60, 255] := by
  rw [applyBlockConfusion_eq_self, applyBlockConfusion_eq_self]

/-! ## The `encrypt` dispatch and single-pixel behaviour -/

/-- Embedding of the pixel-buffer core of `encrypt(img)` from the extended
source (lines 360–400): the dimension validation (lines 363–367, modelled as
`none` for the early error return) followed by the mode dispatch
(lines 384–390): `blockSize < 8` applies the Gilbert-curve confusion,
otherwise the block confusion.  Canvas drawing and JPEG re-encoding are
outside the pixel model. -/
def encryptModel (f : SmoothFactor) (width height : ℤ) (strength : ℚ)
    (blockSize : ℤ) (data : List ℕ) : Option (List ℕ) :=
  if width = 0 ∨ height = 0 then none
  else if blockSize < 8 then
    some (permuteEncrypt width height (curveOf width height)
      (goldenOffset (width * height).toNat strength) data)
  else
    some (applyBlockConfusion f data width.toNat height.toNat blockSize.toNat)

/-- C8: for valid dimensions, `blockSize < 8` routes `encrypt` to the
Gilbert-curve permutation and `blockSize ≥ 8` to the block-smooth transform. -/
theorem encrypt_mode_selection (f : SmoothFactor) (width height : ℤ) (strength : ℚ)
    (blockSize : ℤ) (data : List ℕ) (hw : width ≠ 0) (hh : height ≠ 0) :
    (blockSize < 8 →
      encryptModel f width height strength blockSize data =
        some (permuteEncrypt width height (curveOf width height)
          (goldenOffset (width * height).toNat strength) data)) ∧
    (8 ≤ blockSize →
      encryptModel f width height strength blockSize data =
        some (applyBlockConfusion f data width.toNat height.toNat blockSize.toNat)) := by
  constructor
  · intro hbs
    simp [encryptModel, hw, hh, hbs]
  · intro hbs
    have hns : ¬ blockSize < 8 := not_lt.mpr hbs
    simp [encryptModel, hw, hh, hns]

/-- Witness for `encrypt_mode_selection` at concrete arguments. -/
theorem encrypt_mode_selection_witness :
    ((4 : ℤ) < 8 →
      encryptModel (fun _ _ _ _ => 0) 2 2 1 4 [1, 2, 3] =
        some (permuteEncrypt 2 2 (curveOf 2 2) (goldenOffset 4 1) [1, 2, 3])) ∧
    ((8 : ℤ) ≤ 4 →
      encryptModel (fun _ _ _ _ => 0) 2 2 1 4 [1, 2, 3] =
        some (applyBlockConfusion (fun _ _ _ _ => 0) [1, 2, 3] 2 2 4)) := by
  have h := encrypt_mode_selection (fun _ _ _ _ => 0) 2 2 1 4 [1, 2, 3]
    (by decide) (by decide)
  simpa [goldenOffset] using h

/-- C10: the 1×1 curve is `[(0,0)]`, and the encrypt and decrypt pixel
permutations on a single-pixel buffer are the identity for *every* offset —
the offset is the only quantity the strength influences, so this covers every
strength: `(i + offset) mod 1 = 0` always. -/
theorem singlePixel_identity (offset : ℕ) (data : List ℕ) (h : data.length = 4) :
    gilbert2dRun 1 1 = some [(0, 0)] ∧
    permuteEncrypt 1 1 (curveOf 1 1) offset data = data ∧
    permuteDecrypt 1 1 (curveOf 1 1) offset data = data := by
  obtain ⟨a, b, c, d, rfl⟩ : ∃ a b c d, data = [a, b, c, d] := by
    match data, h with
    | [a, b, c, d], _ => exact ⟨a, b, c, d, rfl⟩
  have hcv : curveOf 1 1 = [(0, 0)] := by decide
  have hr : List.range 1 = [0] := rfl
  refine ⟨by decide, ?_, ?_⟩ <;>
    simp [permuteEncrypt, permuteDecrypt, hcv, set4, slice4, pixOffset, hr,
      Nat.mod_one, List.set_cons_zero, List.set_cons_succ]

/-- Witness for `singlePixel_identity` at concrete arguments. -/
theorem singlePixel_identity_witness :
    gilbert2dRun 1 1 = some [(0, 0)] ∧
    permuteEncrypt 1 1 (curveOf 1 1) 5 [9, 8, 7, 6] = [9, 8, 7, 6] ∧
    permuteDecrypt 1 1 (curveOf 1 1) 5 [9, 8, 7, 6] = [9, 8, 7, 6] :=
  singlePixel_identity 5 [9, 8, 7, 6] (by decide)
